import Mathlib

set_option maxRecDepth 20000

/-!
Verification of the kisdex/mpc-lib threshold-ECDSA core.

This file gives a shallow embedding of the parts of the library that the
checked properties talk about: the big-integer helpers and `Ell` range
parameters of `crypto/zkproofs`, the `Dec` zero-knowledge proof
(`crypto/zkproofs/dec_proof.go`), the generic proof-array serialization,
the `cggplus` signing round 2 message acceptance and update logic, the
eddsa resharing round 5 start, and the Paillier-based MtA share exchange.
Go `big.Int` values are embedded as `Int`; Go's `Mod` (Euclidean, result
taking the sign of the modulus) coincides with `Int.emod` for the positive
moduli used throughout.
-/

/-- Modular exponentiation as computed by Go's `big.Int.Exp(a, b, m)` with a
positive modulus: for `b ≥ 0` the result is `a ^ b mod m`; for `b < 0` Go
first replaces the base by its modular inverse (extended Euclid, here via
`Int.gcdA`). -/
def goExp (a b m : Int) : Int :=
  if b < 0 then ((Int.gcdA a m % m) ^ (-b).toNat) % m
  else (a ^ b.toNat) % m

/-- Exponentiation as computed by Go's `big.Int.Exp(a, b, nil)` without a
modulus: a plain power, and `1` for a negative exponent. -/
def goExpNoMod (a b : Int) : Int :=
  if b < 0 then 1 else a ^ b.toNat

/-- Modelled from the spec (§4.1): `common.ModInt(m).Mul(a, b)`, product
reduced by the modulus (the `common` package is not under `src/`). -/
def modIntMul (m a b : Int) : Int := (a * b) % m

/-- Modelled from the spec (§4.1): `common.ModInt(m).Exp(a, b)`, modular
exponentiation (the `common` package is not under `src/`). -/
def modIntExp (m a b : Int) : Int := goExp a b m

/-- Constants derived from an instance of `elliptic.Curve`
(struct `Ell` of `crypto/zkproofs`). -/
structure Ell where
  Ell : Int
  TwoPowEll : Int
  Epsilon : Int
  EllPlusEpsilon : Int
  TwoPowEllPlusEpsilon : Int
  deriving Repr, DecidableEq

/-- Alias for the `Ell` parameter structure, usable inside the `Ell`
namespace where the bare name would resolve to the same-named field. -/
abbrev EllConstants := Ell

/-- Constructor `zkproofs.NewEll`: `epsilon = 2·ell`, with the two powers of
two computed by `big.Int.Exp` without a modulus. -/
def NewEll (ell : Int) : Ell :=
  let two : Int := 2
  let twoPowEll := goExpNoMod two ell
  let epsilon := ell * two
  let ellPlusEpsilon := ell + epsilon
  let twoPowEllPlusEpsilon := goExpNoMod two ellPlusEpsilon
  { Ell := ell
    TwoPowEll := twoPowEll
    Epsilon := epsilon
    EllPlusEpsilon := ellPlusEpsilon
    TwoPowEllPlusEpsilon := twoPowEllPlusEpsilon }

/-- The fields of Go's `elliptic.CurveParams` that the embedded code reads:
the subgroup order `N` and the `BitSize` of the underlying field. -/
structure CurveParams where
  N : Int
  BitSize : Int
  deriving Repr, DecidableEq

/-- Modelled from the spec (§8): the session curve `tss.EC()` is secp256k1;
its standard group order and bit size. -/
def secp256k1 : CurveParams :=
  { N := 0xFFFFFFFFFFFFFFFFFFFFFFFFFFFFFFFEBAAEDCE6AF48A03BBFD25E8CD0364141
    BitSize := 256 }

/-- Function `zkproofs.GetEll`: the `BitSize` of the curve parameters. -/
def GetEll (ec : CurveParams) : Int := ec.BitSize

/-- Method `Ell.InRange`: true exactly when
`-TwoPowEllPlusEpsilon < val < TwoPowEllPlusEpsilon` (the source returns
false when `val.Cmp(min) != 1 || val.Cmp(max) != -1`). -/
def Ell.InRange (ell : EllConstants) (val : Int) : Bool :=
  let mn := -1 * ell.TwoPowEllPlusEpsilon
  let mx := ell.TwoPowEllPlusEpsilon
  if mn < val ∧ val < mx then true else false

/-- Method `Ell.InRangeEll`: true exactly when
`-TwoPowEll < val < TwoPowEll`. -/
def Ell.InRangeEll (ell : EllConstants) (val : Int) : Bool :=
  let mn := -1 * ell.TwoPowEll
  let mx := ell.TwoPowEll
  if mn < val ∧ val < mx then true else false

/-- Function `zkproofs.IsZero`. -/
def IsZero (val : Int) : Bool := val == 0

/-- Function `zkproofs.APlusBC`: returns `a + b*c`. -/
def APlusBC (a b c : Int) : Int := a + b * c

/-- Function `zkproofs.ATimesBToTheCModN`: returns `a * b^c mod N`. -/
def ATimesBToTheCModN (a b c N : Int) : Int := modIntMul N a (modIntExp N b c)

/-- Function `zkproofs.PseudoPaillierEncrypt`: `gamma^m · rho^N mod N2`. -/
def PseudoPaillierEncrypt (gamma m rho N N2 : Int) : Int :=
  let Gm := goExp gamma m N2
  let Xn := goExp rho N N2
  modIntMul N2 Gm Xn

/-- Struct `zkproofs.RingPedersenParams`. -/
structure RingPedersenParams where
  S : Int
  T : Int
  N : Int
  deriving Repr, DecidableEq

/-- Method `RingPedersenParams.Commit`: `s^x · t^y mod N`. -/
def RingPedersenParams.Commit (rp : RingPedersenParams) (x y : Int) : Int :=
  let sx := modIntExp rp.N rp.S x
  let ty := modIntExp rp.N rp.T y
  modIntMul rp.N sx ty

section SigningRounds

/-- The message content variants that `cggplus` round 2 inspects in its type
switch; every other content falls into `otherMessage`. -/
inductive SignMessageContent where
  | signRound2Message1 : SignMessageContent
  | signRound2Message2 : SignMessageContent
  | otherMessage : SignMessageContent
  deriving Repr, DecidableEq

/-- A delivered `tss.ParsedMessage` as far as `CanAccept` reads it: its
content variant and its broadcast flag. -/
structure ParsedMessage where
  content : SignMessageContent
  isBroadcast : Bool
  deriving Repr, DecidableEq

/-- Method `round2.CanAccept` of the `cggplus` signing protocol: a type
switch that, for both `SignRound2Message1` and `SignRound2Message2`
contents, returns `msg.IsBroadcast()`, and false for any other content. -/
def round2CanAccept (msg : ParsedMessage) : Bool :=
  match msg.content with
  | .signRound2Message1 => msg.isBroadcast
  | .signRound2Message2 => msg.isBroadcast
  | .otherMessage => false

/-- The check `round2.Update` applies to one stored message slot:
`msg == nil || !round.CanAccept(msg)` makes the slot fail. -/
def msgAccepted (msg : Option ParsedMessage) : Bool :=
  match msg with
  | none => false
  | some m => round2CanAccept m

/-- Inner loop of `round2.Update` over `signRound2Message1s[i]`: index `j`
counts from the given start, the diagonal entry `j = i` is skipped, and
every other slot must pass `msgAccepted`. -/
def round2RowAccepted (i : Nat) : Nat → List (Option ParsedMessage) → Bool
  | _, [] => true
  | j, msg :: rest =>
    if i = j then round2RowAccepted i (j + 1) rest
    else msgAccepted msg && round2RowAccepted i (j + 1) rest

/-- Outer loop of `round2.Update` over `signRound2Message1s`: row `i` is
skipped when `i` is the own index or `ok[i]` is already set; otherwise all of
row `i` plus `signRound2Message2s[i]` must be accepted, and `ok[i]` is set.
The first failing row returns `(false, ok-so-far)`. -/
def round2UpdateAux (self : Nat) (m2s : List (Option ParsedMessage)) :
    Nat → List (List (Option ParsedMessage)) → List Bool → Bool × List Bool
  | _, [], ok => (true, ok)
  | i, row :: rest, ok =>
    if i = self ∨ ok.getD i false then round2UpdateAux self m2s (i + 1) rest ok
    else if round2RowAccepted i 0 row && msgAccepted (m2s.getD i none) then
      round2UpdateAux self m2s (i + 1) rest (ok.set i true)
    else (false, ok)

/-- The state `round2.Update` reads: own party index, the `ok` vector, and
the stored round-2 message slots. -/
structure Round2State where
  selfIndex : Nat
  ok : List Bool
  signRound2Message1s : List (List (Option ParsedMessage))
  signRound2Message2s : List (Option ParsedMessage)

/-- Method `round2.Update` of the `cggplus` signing protocol.  The source
returns `(bool, *tss.Error)` with the error always nil; the embedding
returns the boolean, the (always-`none`) error, and the updated `ok`
vector. -/
def round2Update (st : Round2State) : Bool × Option String × List Bool :=
  let r := round2UpdateAux st.selfIndex st.signRound2Message2s 0 st.signRound2Message1s st.ok
  (r.1, none, r.2)

/-- The data saved by the eddsa resharing `round5.Start` for a new-committee
party (`round.save` fields it assigns).  `Pt` is the curve-point type. -/
structure SaveData (Pt : Type) where
  BigXj : List Pt
  ShareID : Int
  Xi : Int
  Ks : List Int
  deriving DecidableEq

/-- The state read and written by the eddsa resharing `round5.Start`
(file `eddsa/resharing/round_5_new_step_3.go`). -/
structure Round5State (Pt : Type) where
  started : Bool
  number : Nat
  oldOK : List Bool
  newOK : List Bool
  isNewCommittee : Bool
  isOldCommittee : Bool
  tempNewBigXjs : List Pt
  tempNewXi : Int
  tempNewKs : List Int
  partyKeyInt : Int
  save : SaveData Pt
  inputXi : Int
  deriving DecidableEq

/-- Method `round5.Start` of eddsa resharing: errors out immediately when the
round is already started; otherwise sets `number := 5` and `started`, marks
all old and new parties OK, saves the new share data (new committee) or
zeroes the input share (old committee), and emits `round.save` on the end
channel (modelled as the third component). -/
def round5Start {Pt : Type} (st : Round5State Pt) :
    Option String × Round5State Pt × Option (SaveData Pt) :=
  if st.started then (some "round already started", st, none)
  else
    let st1 := { st with number := 5, started := true }
    let st2 := { st1 with oldOK := st1.oldOK.map (fun _ => true),
                          newOK := st1.newOK.map (fun _ => true) }
    let st3 :=
      if st2.isNewCommittee then
        { st2 with save := { BigXj := st2.tempNewBigXjs
                             ShareID := st2.partyKeyInt
                             Xi := st2.tempNewXi
                             Ks := st2.tempNewKs } }
      else if st2.isOldCommittee then { st2 with inputXi := 0 }
      else st2
    (none, st3, some st3.save)

end SigningRounds

section RangeClaims

lemma newEll_twoPowEllPlusEpsilon (ell : Int) (h : 0 ≤ ell) :
    (NewEll ell).TwoPowEllPlusEpsilon = 2 ^ (3 * ell).toNat := by
  have hnn : ¬ (ell + ell * 2 < 0) := by omega
  simp only [NewEll, goExpNoMod, if_neg hnn]
  congr 1
  omega

lemma newEll_twoPowEll (ell : Int) (h : 0 ≤ ell) :
    (NewEll ell).TwoPowEll = 2 ^ ell.toNat := by
  have hnn : ¬ (ell < 0) := by omega
  simp only [NewEll, goExpNoMod, if_neg hnn]

lemma inRange_iff (e : Ell) (v : Int) :
    e.InRange v = true ↔ (-e.TwoPowEllPlusEpsilon < v ∧ v < e.TwoPowEllPlusEpsilon) := by
  simp only [Ell.InRange]
  split <;> rename_i h
  · simpa using ⟨by omega, by omega⟩
  · simpa using fun h1 h2 => h ⟨by omega, h2⟩

lemma inRangeEll_iff (e : Ell) (v : Int) :
    e.InRangeEll v = true ↔ (-e.TwoPowEll < v ∧ v < e.TwoPowEll) := by
  simp only [Ell.InRangeEll]
  split <;> rename_i h
  · simpa using ⟨by omega, by omega⟩
  · simpa using fun h1 h2 => h ⟨by omega, h2⟩

/-- Claim C10: for the parameters built by `NewEll`, `InRange` accepts
exactly the integers strictly between `-2^(ℓ+ε)` and `2^(ℓ+ε)` (with
`ℓ+ε = 3ℓ`), rejecting both endpoints, and `InRangeEll` likewise accepts
exactly the integers strictly between `-2^ℓ` and `2^ℓ`, rejecting both
endpoints. -/
theorem claim_C10 (ell v : Int) (h : 0 ≤ ell) :
    ((NewEll ell).InRange v = true ↔
        (-(2 ^ (3 * ell).toNat : Int) < v ∧ v < 2 ^ (3 * ell).toNat)) ∧
    (NewEll ell).InRange ((2 : Int) ^ (3 * ell).toNat) = false ∧
    (NewEll ell).InRange (-((2 : Int) ^ (3 * ell).toNat)) = false ∧
    ((NewEll ell).InRangeEll v = true ↔
        (-(2 ^ ell.toNat : Int) < v ∧ v < 2 ^ ell.toNat)) ∧
    (NewEll ell).InRangeEll ((2 : Int) ^ ell.toNat) = false ∧
    (NewEll ell).InRangeEll (-((2 : Int) ^ ell.toNat)) = false := by
  have h1 := newEll_twoPowEllPlusEpsilon ell h
  have h2 := newEll_twoPowEll ell h
  refine ⟨?_, ?_, ?_, ?_, ?_, ?_⟩
  · rw [inRange_iff, h1]
  · rw [← Bool.not_eq_true, inRange_iff, h1]; omega
  · rw [← Bool.not_eq_true, inRange_iff, h1]; omega
  · rw [inRangeEll_iff, h2]
  · rw [← Bool.not_eq_true, inRangeEll_iff, h2]; omega
  · rw [← Bool.not_eq_true, inRangeEll_iff, h2]; omega

/-- Witness for claim C10 at `ell = 1`, `v = 0`. -/
theorem claim_C10_witness :
    (0 : Int) ≤ 1 ∧
    (((NewEll 1).InRange 0 = true ↔
        (-(2 ^ (3 * (1:Int)).toNat : Int) < 0 ∧ (0:Int) < 2 ^ (3 * (1:Int)).toNat)) ∧
    (NewEll 1).InRange ((2 : Int) ^ (3 * (1:Int)).toNat) = false ∧
    (NewEll 1).InRange (-((2 : Int) ^ (3 * (1:Int)).toNat)) = false ∧
    ((NewEll 1).InRangeEll 0 = true ↔
        (-(2 ^ (1:Int).toNat : Int) < 0 ∧ (0:Int) < 2 ^ (1:Int).toNat)) ∧
    (NewEll 1).InRangeEll ((2 : Int) ^ (1:Int).toNat) = false ∧
    (NewEll 1).InRangeEll (-((2 : Int) ^ (1:Int).toNat)) = false) :=
  ⟨by decide, claim_C10 1 0 (by decide)⟩

/-- Counterexample for claim C9: `GetEll` on the secp256k1 parameters
returns 256, which is not `⌊log₂ q⌋` for the curve order `q`: the order
satisfies `2^255 ≤ q < 2^256`, so its floor base-2 logarithm is 255. -/
theorem claim_C9_counterexample :
    GetEll secp256k1 = 256 ∧
    (2 : Int) ^ 255 ≤ secp256k1.N ∧ secp256k1.N < (2 : Int) ^ 256 ∧
    ¬ ((2 : Int) ^ (GetEll secp256k1).toNat ≤ secp256k1.N) := by
  refine ⟨rfl, by decide, by decide, by decide⟩

/-- Claim C9 (amended): the range parameter is the curve's bit size,
`ℓ = ⌊log₂ q⌋ + 1 = 256` for secp256k1 (so `2^(ℓ-1) ≤ q < 2^ℓ`), and
`NewEll` sets `ε = 2ℓ`, `EllPlusEpsilon = 3ℓ` and
`TwoPowEllPlusEpsilon = 2^(3ℓ)`. -/
theorem claim_C9 (ell : Int) (h : 0 ≤ ell) :
    GetEll secp256k1 = 256 ∧
    (2 : Int) ^ ((GetEll secp256k1).toNat - 1) ≤ secp256k1.N ∧
    secp256k1.N < (2 : Int) ^ (GetEll secp256k1).toNat ∧
    (NewEll ell).Epsilon = 2 * ell ∧
    (NewEll ell).EllPlusEpsilon = 3 * ell ∧
    (NewEll ell).TwoPowEll = 2 ^ ell.toNat ∧
    (NewEll ell).TwoPowEllPlusEpsilon = 2 ^ (3 * ell).toNat := by
  refine ⟨rfl, by decide, by decide, ?_, ?_,
    newEll_twoPowEll ell h, newEll_twoPowEllPlusEpsilon ell h⟩
  · simp only [NewEll]; ring
  · simp only [NewEll]; ring

/-- Witness for claim C9 at `ell = 2`. -/
theorem claim_C9_witness :
    (0 : Int) ≤ 2 ∧
    (GetEll secp256k1 = 256 ∧
    (2 : Int) ^ ((GetEll secp256k1).toNat - 1) ≤ secp256k1.N ∧
    secp256k1.N < (2 : Int) ^ (GetEll secp256k1).toNat ∧
    (NewEll 2).Epsilon = 2 * 2 ∧
    (NewEll 2).EllPlusEpsilon = 3 * 2 ∧
    (NewEll 2).TwoPowEll = 2 ^ (2:Int).toNat ∧
    (NewEll 2).TwoPowEllPlusEpsilon = 2 ^ (3 * (2:Int)).toNat) :=
  ⟨by decide, claim_C9 2 (by decide)⟩

end RangeClaims

section RoundClaims

/-- Counterexample for claim C5: a `SignRound2Message1` delivered as a
non-broadcast (unicast) message is rejected by `round2.CanAccept`, which
gates this content on `msg.IsBroadcast()`. -/
theorem claim_C5_counterexample :
    round2CanAccept { content := .signRound2Message1, isBroadcast := false } = false := rfl

/-- Claim C5 (amended): `round2.CanAccept` accepts a `SignRound2Message1`
exactly when it is delivered as a broadcast message — the acceptance equals
the message's broadcast flag. -/
theorem claim_C5 (b : Bool) :
    round2CanAccept { content := .signRound2Message1, isBroadcast := b } = b := rfl

/-- Claim C7: calling `round5.Start` on an already-started round returns the
round-already-started error, leaves the state unchanged, and emits nothing. -/
theorem claim_C7 {Pt : Type} (st : Round5State Pt) (h : st.started = true) :
    round5Start st = (some "round already started", st, none) := by
  simp [round5Start, h]

/-- A concrete already-started resharing round-5 state. -/
def c7State : Round5State Int :=
  { started := true, number := 0, oldOK := [false], newOK := [false]
    isNewCommittee := true, isOldCommittee := false
    tempNewBigXjs := [7], tempNewXi := 3, tempNewKs := [1]
    partyKeyInt := 9
    save := { BigXj := [], ShareID := 0, Xi := 0, Ks := [] }
    inputXi := 5 }

/-- Witness for claim C7 at a concrete started state. -/
theorem claim_C7_witness :
    c7State.started = true ∧
    round5Start c7State = (some "round already started", c7State, none) :=
  ⟨rfl, claim_C7 c7State rfl⟩

end RoundClaims

section UpdateClaim

lemma msgAccepted_iff (o : Option ParsedMessage) :
    msgAccepted o = true ↔ ∃ m, o = some m ∧ round2CanAccept m = true := by
  cases o <;> simp [msgAccepted]

lemma round2RowAccepted_iff (i : Nat) (row : List (Option ParsedMessage)) :
    ∀ j : Nat,
      (round2RowAccepted i j row = true ↔
        ∀ k, k < row.length → j + k ≠ i → msgAccepted (row.getD k none) = true) := by
  induction row with
  | nil => intro j; simp [round2RowAccepted]
  | cons msg rest ih =>
    intro j
    by_cases hij : i = j
    · rw [round2RowAccepted, if_pos hij, ih (j + 1)]
      constructor
      · intro h k hk hki
        cases k with
        | zero => omega
        | succ k =>
          simpa using h k (by simpa using hk) (by omega)
      · intro h k hk hki
        simpa using h (k + 1) (by simpa using hk) (by omega)
    · rw [round2RowAccepted, if_neg hij, Bool.and_eq_true, ih (j + 1)]
      constructor
      · rintro ⟨hm, h⟩ k hk hki
        cases k with
        | zero => simpa using hm
        | succ k =>
          simpa using h k (by simpa using hk) (by omega)
      · intro h
        refine ⟨by simpa using h 0 (by simp) (by omega), fun k hk hki => ?_⟩
        simpa using h (k + 1) (by simpa using hk) (by omega)

lemma round2UpdateAux_iff (self : Nat) (m2s : List (Option ParsedMessage)) :
    ∀ (rows : List (List (Option ParsedMessage))) (i : Nat) (ok : List Bool),
      (∀ k, k < rows.length → ok.getD (i + k) false = decide (i + k = self)) →
      ((round2UpdateAux self m2s i rows ok).1 = true ↔
        ∀ k, k < rows.length → i + k ≠ self →
          (round2RowAccepted (i + k) 0 (rows.getD k []) = true ∧
           msgAccepted (m2s.getD (i + k) none) = true)) := by
  intro rows
  induction rows with
  | nil => intro i ok hok; simp [round2UpdateAux]
  | cons row rest ih =>
    intro i ok hok
    have hok0 : ok.getD i false = decide (i = self) := by
      have := hok 0 (by simp)
      rwa [Nat.add_zero] at this
    have hokRest : ∀ okl : List Bool,
        (∀ k, k < (row :: rest).length → okl.getD (i + k) false = decide (i + k = self)) →
        ∀ k, k < rest.length → okl.getD (i + 1 + k) false = decide (i + 1 + k = self) := by
      intro okl h k hk
      have hlen : k + 1 < (row :: rest).length := by simp; omega
      have := h (k + 1) hlen
      have e : i + (k + 1) = i + 1 + k := by omega
      rwa [e] at this
    by_cases hself : i = self
    · rw [round2UpdateAux, if_pos (Or.inl hself)]
      rw [ih (i + 1) ok (hokRest ok hok)]
      constructor
      · intro h k hk hks
        have hk0 : k ≠ 0 := by omega
        obtain ⟨k', rfl⟩ : ∃ k', k = k' + 1 := ⟨k - 1, by omega⟩
        have e : i + (k' + 1) = i + 1 + k' := by omega
        rw [e] at hks ⊢
        exact h k' (by simp at hk; omega) hks
      · intro h k hk hks
        have e : i + 1 + k = i + (k + 1) := by omega
        rw [e] at hks ⊢
        have := h (k + 1) (by simp; omega) hks
        exact this
    · have hokf : ok.getD i false = false := by rw [hok0]; simp [hself]
      have hcond : ¬ (i = self ∨ ok.getD i false = true) := by
        rw [hokf]; simp [hself]
      rw [round2UpdateAux, if_neg hcond]
      by_cases hcheck :
          (round2RowAccepted i 0 row && msgAccepted (m2s.getD i none)) = true
      · rw [if_pos hcheck]
        have hsetInv : ∀ k, k < rest.length →
            (ok.set i true).getD (i + 1 + k) false = decide (i + 1 + k = self) := by
          intro k hk
          have hne : i ≠ i + 1 + k := by omega
          have hset : (ok.set i true).getD (i + 1 + k) false = ok.getD (i + 1 + k) false := by
            rw [List.getD_eq_getElem?_getD, List.getD_eq_getElem?_getD,
              List.getElem?_set_ne hne]
          rw [hset]
          exact hokRest ok hok k hk
        rw [ih (i + 1) (ok.set i true) hsetInv]
        rw [Bool.and_eq_true] at hcheck
        constructor
        · intro h k hk hks
          rcases Nat.eq_zero_or_pos k with hk0 | hk0
          · subst hk0
            rw [Nat.add_zero]
            exact ⟨hcheck.1, hcheck.2⟩
          · obtain ⟨k', rfl⟩ : ∃ k', k = k' + 1 := ⟨k - 1, by omega⟩
            have e : i + (k' + 1) = i + 1 + k' := by omega
            rw [e] at hks ⊢
            exact h k' (by simp at hk; omega) hks
        · intro h k hk hks
          have e : i + 1 + k = i + (k + 1) := by omega
          rw [e] at hks ⊢
          exact h (k + 1) (by simp; omega) hks
      · rw [if_neg hcheck]
        constructor
        · intro h; exact absurd h (by simp)
        · intro h
          exfalso
          have h0 := h 0 (by simp) (by rwa [Nat.add_zero])
          rw [Nat.add_zero] at h0
          apply hcheck
          rw [Bool.and_eq_true]
          exact ⟨h0.1, h0.2⟩

/-- Claim C6: starting from the post-`Start` acknowledgement state (only the
own index marked OK), `round2.Update` returns `(true, nil)` exactly when, for
every peer index `i` other than self, every stored `SignRound2Message1` from
`i` to each other party `j ≠ i` has arrived and passes `CanAccept`, and
peer `i`'s `SignRound2Message2` has arrived and passes `CanAccept`; the error
component is always nil. -/
theorem claim_C6 (st : Round2State)
    (hok : ∀ k, k < st.signRound2Message1s.length →
      st.ok.getD k false = decide (k = st.selfIndex)) :
    (round2Update st).2.1 = none ∧
    ((round2Update st).1 = true ↔
      ∀ i, i < st.signRound2Message1s.length → i ≠ st.selfIndex →
        ((∀ j, j < (st.signRound2Message1s.getD i []).length → j ≠ i →
            ∃ m, (st.signRound2Message1s.getD i []).getD j none = some m ∧
              round2CanAccept m = true) ∧
         ∃ m2, st.signRound2Message2s.getD i none = some m2 ∧
           round2CanAccept m2 = true)) := by
  constructor
  · rfl
  · have haux := round2UpdateAux_iff st.selfIndex st.signRound2Message2s
      st.signRound2Message1s 0 st.ok (by simpa using hok)
    have hupd : (round2Update st).1 =
        (round2UpdateAux st.selfIndex st.signRound2Message2s 0
          st.signRound2Message1s st.ok).1 := rfl
    rw [hupd, haux]
    constructor
    · intro h i hi hself
      have := h i (by simpa using hi) (by simpa using hself)
      rw [Nat.zero_add] at this
      refine ⟨?_, (msgAccepted_iff _).1 this.2⟩
      intro j hj hji
      have hrow := (round2RowAccepted_iff i _ 0).1 this.1 j hj (by omega)
      exact (msgAccepted_iff _).1 hrow
    · intro h k hk hks
      rw [Nat.zero_add] at hks ⊢
      have := h k hk hks
      refine ⟨(round2RowAccepted_iff k _ 0).2 ?_, (msgAccepted_iff _).2 this.2⟩
      intro j hj hjk
      exact (msgAccepted_iff _).2 (this.1 j hj (by omega))

end UpdateClaim

section UpdateWitness

/-- A concrete two-party round-2 state in which peer 1's messages have all
arrived as broadcasts: used to witness claim C6. -/
def c6State : Round2State :=
  { selfIndex := 0
    ok := [true, false]
    signRound2Message1s :=
      [[none, none],
       [some { content := .signRound2Message1, isBroadcast := true }, none]]
    signRound2Message2s :=
      [none, some { content := .signRound2Message2, isBroadcast := true }] }

/-- Witness for claim C6 at the concrete state `c6State`. -/
theorem claim_C6_witness :
    (∀ k, k < c6State.signRound2Message1s.length →
      c6State.ok.getD k false = decide (k = c6State.selfIndex)) ∧
    ((round2Update c6State).2.1 = none ∧
     ((round2Update c6State).1 = true ↔
       ∀ i, i < c6State.signRound2Message1s.length → i ≠ c6State.selfIndex →
         ((∀ j, j < (c6State.signRound2Message1s.getD i []).length → j ≠ i →
             ∃ m, (c6State.signRound2Message1s.getD i []).getD j none = some m ∧
               round2CanAccept m = true) ∧
          ∃ m2, c6State.signRound2Message2s.getD i none = some m2 ∧
            round2CanAccept m2 = true))) := by
  have hok : ∀ k, k < c6State.signRound2Message1s.length →
      c6State.ok.getD k false = decide (k = c6State.selfIndex) := by
    intro k hk
    have hk2 : k < 2 := hk
    interval_cases k <;> rfl
  exact ⟨hok, claim_C6 c6State hok⟩

end UpdateWitness

section DecProofEmbedding

/-- Struct `zkproofs.DecProof` (file `crypto/zkproofs/dec_proof.go`): the
seven components `(S, T, A, Gamma, Z1, Z2, W)` of a CGG21 Fig. 30 `dec`
proof. -/
structure DecProof where
  S : Int
  T : Int
  A : Int
  Gamma : Int
  Z1 : Int
  Z2 : Int
  W : Int
  deriving Repr, DecidableEq

/-- Struct `zkproofs.DecStatement`: the statement `(Q, ℓ, N0, C, x)`. -/
structure DecStatement where
  Q : Int
  Ell : Int
  N0 : Int
  C : Int
  X : Int
  deriving Repr, DecidableEq

/-- Struct `zkproofs.DecWitness`: the witness `(y, ρ)`. -/
structure DecWitness where
  Y : Int
  Rho : Int
  deriving Repr, DecidableEq

/-- Modelled from the spec (§4.2): `paillier.PublicKey.EncryptWithRandomnessNoErrChk`
(the `paillier` implementation is not under `src/`): `Enc(m, ρ) = (1+N)^m ρ^N mod N²`,
the same formula as `zkproofs.PseudoPaillierEncrypt` with base `1+N`. -/
def EncryptWithRandomnessNoErrChk (N m rho : Int) : Int :=
  PseudoPaillierEncrypt (1 + N) m rho N (N * N)

/-- Method `DecProof.GetChallenge`: the Fiat-Shamir challenge over statement,
Ring-Pedersen parameters and commitments.  `common.SHA512_256i` is not under
`src/`; the spec (§4.1, §4.4) models it as a hash-to-integer producing the
challenge, here abstracted as the function argument `hash` applied to the
ordered field list of the source. -/
def DecProof.GetChallenge (hash : List Int → Int) (proof : DecProof)
    (stmt : DecStatement) (rp : RingPedersenParams) : Int :=
  hash [stmt.Ell, stmt.Q, stmt.N0, stmt.C, stmt.X, rp.N, rp.S, rp.T,
    proof.S, proof.T, proof.A, proof.Gamma]

/-- Function `zkproofs.NewDecProof`: the prover of CGG21 Fig. 30 `dec`.  The
sampled randomness `alpha, mu, nu, r` is passed explicitly (the source draws
them from `[0, 2^(ℓ+ε))`, `[0, 2^ℓ·Ñ)`, `[0, 2^(ℓ+ε)·Ñ)` and `[0, N0)`);
the Fiat-Shamir hash is the abstracted `hash` argument. -/
def NewDecProof (hash : List Int → Int) (alpha mu nu r : Int)
    (wit : DecWitness) (stmt : DecStatement) (rp : RingPedersenParams) : DecProof :=
  let S := rp.Commit wit.Y mu
  let T := rp.Commit alpha nu
  let A := EncryptWithRandomnessNoErrChk stmt.N0 alpha r
  let gamma := alpha % stmt.Q
  let commitments : DecProof :=
    { S := S, T := T, A := A, Gamma := gamma, Z1 := 0, Z2 := 0, W := 0 }
  let e := commitments.GetChallenge hash stmt rp
  { commitments with
    Z1 := APlusBC alpha e wit.Y
    Z2 := APlusBC nu e mu
    W := ATimesBToTheCModN r wit.Rho e stmt.N0 }

/-- Method `DecProof.Verify`: rejects a non-positive modulus, recomputes the
challenge, rejects `W = 0` or `A = 0`, and checks the three verification
equations of CGG21 Fig. 30.  No range check is performed on any component. -/
def DecProof.Verify (hash : List Int → Int) (proof : DecProof)
    (stmt : DecStatement) (rp : RingPedersenParams) : Bool :=
  if stmt.N0 ≤ 0 then false
  else
    let e := proof.GetChallenge hash stmt rp
    if IsZero proof.W || IsZero proof.A then false
    else
      let left1 := EncryptWithRandomnessNoErrChk stmt.N0 proof.Z1 proof.W
      let right1 := ATimesBToTheCModN proof.A stmt.C e (stmt.N0 * stmt.N0)
      if left1 ≠ right1 then false
      else
        let left2 := proof.Z1 % stmt.Q
        let right2 := (APlusBC proof.Gamma e stmt.X) % stmt.Q
        if left2 ≠ right2 then false
        else
          let left3 := rp.Commit proof.Z1 proof.Z2
          let right3 := ATimesBToTheCModN proof.T proof.S e rp.N
          if left3 ≠ right3 then false
          else true

/-- A constant Fiat-Shamir challenge function used for concrete evaluations:
the challenge value 3. -/
def c1Hash : List Int → Int := fun _ => 3

/-- The concrete Dec statement for the claim C1 failing input. -/
def c1Stmt : DecStatement :=
  { Q := 7, Ell := 2, N0 := 15, C := EncryptWithRandomnessNoErrChk 15 100 2, X := 100 % 7 }

/-- The concrete Ring-Pedersen parameters for the claim C1 failing input. -/
def c1Rp : RingPedersenParams := { S := 2, T := 3, N := 11 }

/-- The concrete honestly-generated proof for the claim C1 failing input:
witness `y = 100`, `ρ = 2` with randomness `α = 7, μ = 1, ν = 1, r = 4`. -/
def c1Proof : DecProof := NewDecProof c1Hash 7 1 1 4 { Y := 100, Rho := 2 } c1Stmt c1Rp

/-- Claim C1 (failing input): `DecProof.Verify` accepts a concrete proof
whose `Gamma` component equals 0 and whose `Z1` component lies outside
`[-2^(ℓ+ε), 2^(ℓ+ε)]` (here `ℓ = 2`, so the interval is `[-64, 64]` and
`Z1 = 307`): the verifier performs no zero test on `S, T, Gamma, Z1, Z2`
and no range check at all, contradicting the claimed totality. -/
theorem claim_C1 :
    c1Proof.Verify c1Hash c1Stmt c1Rp = true ∧
    c1Proof.Gamma = 0 ∧
    c1Proof.Z1 = 307 ∧
    (NewEll c1Stmt.Ell).InRange c1Proof.Z1 = false := by
  refine ⟨by decide, by decide, by decide, by decide⟩

end DecProofEmbedding

section ModularLemmas

lemma pow_modEq_sq_aux (b d : Int) :
    ∀ n : Nat, (b + d) ^ (n + 1) ≡ b ^ (n + 1) + ((n : Int) + 1) * b ^ n * d [ZMOD d * d] := by
  intro n
  induction n with
  | zero =>
    have heq : b ^ (0 + 1) + (((0 : Nat) : Int) + 1) * b ^ 0 * d = (b + d) ^ (0 + 1) := by
      push_cast; ring
    exact heq ▸ Int.ModEq.refl _
  | succ n ih =>
    have hc : (((n + 1 : Nat) : Int) + 1) = ((n : Int) + 1) + 1 := by push_cast; ring
    calc (b + d) ^ (n + 1 + 1) = (b + d) ^ (n + 1) * (b + d) := by ring
      _ ≡ (b ^ (n + 1) + ((n : Int) + 1) * b ^ n * d) * (b + d) [ZMOD d * d] :=
          ih.mul_right _
      _ = (b ^ (n + 1 + 1) + (((n : Int) + 1) + 1) * b ^ (n + 1) * d) +
            (d * d) * (((n : Int) + 1) * b ^ n) := by ring
      _ ≡ b ^ (n + 1 + 1) + (((n : Int) + 1) + 1) * b ^ (n + 1) * d [ZMOD d * d] :=
          Int.modEq_add_fac_self
      _ = b ^ (n + 1 + 1) + (((n + 1 : Nat) : Int) + 1) * b ^ (n + 1) * d := by
          rw [hc]

/-- Lifting a congruence mod `N` to a congruence of `N`-th powers mod `N²`:
the classic Paillier-style fact `(x mod N)^N ≡ x^N (mod N²)`. -/
lemma pow_modEq_sq {a b N : Int} (hN : 0 < N) (h : a ≡ b [ZMOD N]) :
    a ^ N.toNat ≡ b ^ N.toNat [ZMOD N * N] := by
  have hd : N ∣ a - b := dvd_sub_comm.mp (Int.ModEq.dvd h)
  obtain ⟨t, ht⟩ := hd
  obtain ⟨n, hn⟩ : ∃ n, N.toNat = n + 1 := ⟨N.toNat - 1, by omega⟩
  set d := a - b with hdd
  have hab : a = b + d := by ring
  have haux := pow_modEq_sq_aux b d n
  have hdvd : N * N ∣ d * d := ⟨t * t, by rw [ht]; ring⟩
  have h1 : (b + d) ^ (n + 1) ≡ b ^ (n + 1) + ((n : Int) + 1) * b ^ n * d [ZMOD N * N] :=
    haux.of_dvd hdvd
  have hNe : ((n : Int) + 1) = N := by omega
  have h0 : ((n : Int) + 1) * b ^ n * d ≡ 0 [ZMOD N * N] := by
    refine Dvd.dvd.modEq_zero_int ⟨b ^ n * t, ?_⟩
    rw [hNe, ht]; ring
  calc a ^ N.toNat = (b + d) ^ (n + 1) := by rw [hn, ← hab]
    _ ≡ b ^ (n + 1) + ((n : Int) + 1) * b ^ n * d [ZMOD N * N] := h1
    _ ≡ b ^ (n + 1) + 0 [ZMOD N * N] := (h0).add_left _
    _ = b ^ N.toNat := by rw [hn]; ring

lemma isCoprime_emod {a n : Int} (h : IsCoprime a n) : IsCoprime (a % n) n := by
  have heq : a % n = a + n * (-(a / n)) := by
    rw [Int.emod_def]; ring
  rw [heq]
  exact h.add_mul_left_left _

lemma emod_ne_zero_of_coprime {a n : Int} (hn : 1 < n) (h : IsCoprime a n) :
    a % n ≠ 0 := by
  intro h0
  have hdvd : n ∣ a := Int.dvd_of_emod_eq_zero h0
  obtain ⟨u, v, huv⟩ := h
  have hone : n ∣ 1 := by
    rw [← huv]
    exact dvd_add (Dvd.dvd.mul_left hdvd u) (Dvd.dvd.mul_left dvd_rfl v)
  have := Int.le_of_dvd (by omega) hone
  omega

lemma emod_modEq (a n : Int) : a % n ≡ a [ZMOD n] := Int.emod_emod_of_dvd a dvd_rfl

end ModularLemmas

section DecCompleteness

lemma decVerify_eq_true (hash : List Int → Int) (proof : DecProof) (stmt : DecStatement)
    (rp : RingPedersenParams)
    (h0 : ¬ stmt.N0 ≤ 0)
    (hW : proof.W ≠ 0) (hA : proof.A ≠ 0)
    (h1 : EncryptWithRandomnessNoErrChk stmt.N0 proof.Z1 proof.W =
      ATimesBToTheCModN proof.A stmt.C (proof.GetChallenge hash stmt rp) (stmt.N0 * stmt.N0))
    (h2 : proof.Z1 % stmt.Q =
      (APlusBC proof.Gamma (proof.GetChallenge hash stmt rp) stmt.X) % stmt.Q)
    (h3 : rp.Commit proof.Z1 proof.Z2 =
      ATimesBToTheCModN proof.T proof.S (proof.GetChallenge hash stmt rp) rp.N) :
    proof.Verify hash stmt rp = true := by
  simp only [DecProof.Verify]
  rw [if_neg h0, if_neg (by simp [IsZero, hW, hA]),
    if_neg (not_not_intro h1), if_neg (not_not_intro h2), if_neg (not_not_intro h3)]

lemma goExp_of_nonneg {b : Int} (a m : Int) (h : 0 ≤ b) :
    goExp a b m = a ^ b.toNat % m := by
  rw [goExp, if_neg (not_lt.mpr h)]

end DecCompleteness

section DecCompletenessMain

lemma mul_emod_both (a b n : Int) : ((a % n) * (b % n)) % n = (a * b) % n :=
  (Int.mul_emod a b n).symm

lemma mul_emod_left_absorb (a b n : Int) : (a * (b % n)) % n = (a * b) % n := by
  rw [Int.mul_emod, Int.emod_emod_of_dvd _ dvd_rfl, ← Int.mul_emod]

lemma goExp_natCast (a : Int) (b : Nat) (m : Int) : goExp a (b : Int) m = a ^ b % m := by
  rw [goExp_of_nonneg a m (Int.natCast_nonneg b), Int.toNat_natCast]

/-- Claim C3: completeness of the Dec proof.  For a witness `(y, ρ)` with
`ρ` coprime to `N0`, a statement with `C = Enc_{N0}(y, ρ)` and `x = y mod Q`,
and prover randomness `α, μ, ν, r` in their sampling ranges (nonnegative,
`r` coprime to `N0`, as drawn from `Z*_{N0}`), the proof produced by
`NewDecProof` verifies under the same Ring-Pedersen parameters, for any
challenge function producing nonnegative challenges. -/
theorem claim_C3 (hash : List Int → Int) (hhash : ∀ msg, 0 ≤ hash msg)
    (alpha mu nu r y rho : Int) (stmt : DecStatement) (rp : RingPedersenParams)
    (hN0 : 1 < stmt.N0)
    (halpha : 0 ≤ alpha) (hmu : 0 ≤ mu) (hnu : 0 ≤ nu) (hr : 0 ≤ r)
    (hy : 0 ≤ y) (hrho : 0 ≤ rho)
    (hrcop : IsCoprime r stmt.N0) (hrhocop : IsCoprime rho stmt.N0)
    (hC : stmt.C = EncryptWithRandomnessNoErrChk stmt.N0 y rho)
    (hX : stmt.X = y % stmt.Q) :
    (NewDecProof hash alpha mu nu r { Y := y, Rho := rho } stmt rp).Verify hash stmt rp
      = true := by
  have he0 : 0 ≤ (NewDecProof hash alpha mu nu r { Y := y, Rho := rho } stmt rp).GetChallenge
      hash stmt rp := hhash _
  set p := NewDecProof hash alpha mu nu r { Y := y, Rho := rho } stmt rp with hp
  have hpS : p.S = rp.Commit y mu := rfl
  have hpT : p.T = rp.Commit alpha nu := rfl
  have hpA : p.A = EncryptWithRandomnessNoErrChk stmt.N0 alpha r := rfl
  have hpG : p.Gamma = alpha % stmt.Q := rfl
  have hpZ1 : p.Z1 = alpha + p.GetChallenge hash stmt rp * y := rfl
  have hpZ2 : p.Z2 = nu + p.GetChallenge hash stmt rp * mu := rfl
  have hpW : p.W = ATimesBToTheCModN r rho (p.GetChallenge hash stmt rp) stmt.N0 := rfl
  set e := p.GetChallenge hash stmt rp with hE
  clear_value p e
  clear hp
  lift e to ℕ using he0 with en
  lift alpha to ℕ using halpha with a
  lift mu to ℕ using hmu with m
  lift nu to ℕ using hnu with u
  lift r to ℕ using hr with rr
  lift y to ℕ using hy with yy
  lift rho to ℕ using hrho with ro
  have hN0pos : (0 : Int) < stmt.N0 := by omega
  have hN0nn : (0 : Int) ≤ stmt.N0 := by omega
  have hMgt : (1 : Int) < stmt.N0 * stmt.N0 := by nlinarith
  have h1cop : IsCoprime (1 + stmt.N0) stmt.N0 := by
    have h := (isCoprime_one_left : IsCoprime (1 : Int) stmt.N0)
    simpa using h.add_mul_left_left 1
  have hrcop2 : IsCoprime (rr : Int) (stmt.N0 * stmt.N0) := hrcop.mul_right hrcop
  have hrhocop2 : IsCoprime (ro : Int) (stmt.N0 * stmt.N0) := hrhocop.mul_right hrhocop
  have h1cop2 : IsCoprime (1 + stmt.N0) (stmt.N0 * stmt.N0) := h1cop.mul_right h1cop
  refine decVerify_eq_true hash p stmt rp (by omega) ?_ ?_ ?_ ?_ ?_
  · -- W ≠ 0
    rw [hpW]
    simp only [ATimesBToTheCModN, modIntMul, modIntExp, goExp_natCast]
    exact emod_ne_zero_of_coprime hN0
      (IsCoprime.mul_left hrcop (isCoprime_emod (hrhocop.pow_left)))
  · -- A ≠ 0
    rw [hpA]
    simp only [EncryptWithRandomnessNoErrChk, PseudoPaillierEncrypt, modIntMul,
      goExp_natCast, goExp_of_nonneg, hN0nn]
    exact emod_ne_zero_of_coprime hMgt
      (IsCoprime.mul_left (isCoprime_emod (h1cop2.pow_left))
        (isCoprime_emod (hrcop2.pow_left)))
  · -- first verification equation
    rw [← hE, hpZ1, hpW, hpA, hC]
    have hz1c : ((a : Int) + (en : Int) * (yy : Int)) = ((a + en * yy : Nat) : Int) := by
      push_cast; ring
    simp only [EncryptWithRandomnessNoErrChk, PseudoPaillierEncrypt, ATimesBToTheCModN,
      modIntMul, modIntExp, hz1c, goExp_natCast, goExp_of_nonneg, hN0nn]
    show Int.ModEq (stmt.N0 * stmt.N0) _ _
    have hWv : ((rr : Int) * ((ro : Int) ^ en % stmt.N0)) % stmt.N0 ≡
        (rr : Int) * (ro : Int) ^ en [ZMOD stmt.N0] :=
      (emod_modEq _ _).trans (Int.ModEq.mul_left _ (emod_modEq _ _))
    have l1 : (1 + stmt.N0) ^ (a + en * yy) % (stmt.N0 * stmt.N0) ≡
        (1 + stmt.N0) ^ (a + en * yy) [ZMOD stmt.N0 * stmt.N0] := emod_modEq _ _
    have l2 : (((rr : Int) * ((ro : Int) ^ en % stmt.N0)) % stmt.N0) ^ stmt.N0.toNat
          % (stmt.N0 * stmt.N0) ≡
        ((rr : Int) * (ro : Int) ^ en) ^ stmt.N0.toNat [ZMOD stmt.N0 * stmt.N0] :=
      (emod_modEq _ _).trans (pow_modEq_sq hN0pos hWv)
    have r1 : ((1 + stmt.N0) ^ a % (stmt.N0 * stmt.N0)) *
          ((rr : Int) ^ stmt.N0.toNat % (stmt.N0 * stmt.N0)) % (stmt.N0 * stmt.N0) ≡
        (1 + stmt.N0) ^ a * (rr : Int) ^ stmt.N0.toNat [ZMOD stmt.N0 * stmt.N0] :=
      (emod_modEq _ _).trans (Int.ModEq.mul (emod_modEq _ _) (emod_modEq _ _))
    have r2 : (((1 + stmt.N0) ^ yy % (stmt.N0 * stmt.N0)) *
            ((ro : Int) ^ stmt.N0.toNat % (stmt.N0 * stmt.N0)) % (stmt.N0 * stmt.N0)) ^ en
          % (stmt.N0 * stmt.N0) ≡
        ((1 + stmt.N0) ^ yy * (ro : Int) ^ stmt.N0.toNat) ^ en [ZMOD stmt.N0 * stmt.N0] :=
      (emod_modEq _ _).trans (Int.ModEq.pow en
        ((emod_modEq _ _).trans (Int.ModEq.mul (emod_modEq _ _) (emod_modEq _ _))))
    refine Int.ModEq.trans (Int.ModEq.mul l1 l2) ?_
    have hring : (1 + stmt.N0) ^ (a + en * yy) *
          ((rr : Int) * (ro : Int) ^ en) ^ stmt.N0.toNat =
        ((1 + stmt.N0) ^ a * (rr : Int) ^ stmt.N0.toNat) *
          ((1 + stmt.N0) ^ yy * (ro : Int) ^ stmt.N0.toNat) ^ en := by ring
    rw [hring]
    exact Int.ModEq.mul r1.symm r2.symm
  · -- second verification equation
    rw [← hE, hpZ1, hpG, hX]
    simp only [APlusBC]
    exact ((emod_modEq (a : Int) stmt.Q).add
      (Int.ModEq.mul_left (en : Int) (emod_modEq (yy : Int) stmt.Q))).symm
  · -- third verification equation
    rw [← hE, hpZ1, hpZ2, hpT, hpS]
    have hz1c : ((a : Int) + (en : Int) * (yy : Int)) = ((a + en * yy : Nat) : Int) := by
      push_cast; ring
    have hz2c : ((u : Int) + (en : Int) * (m : Int)) = ((u + en * m : Nat) : Int) := by
      push_cast; ring
    simp only [RingPedersenParams.Commit, ATimesBToTheCModN, modIntMul, modIntExp,
      hz1c, hz2c, goExp_natCast]
    show Int.ModEq rp.N _ _
    have l1 : rp.S ^ (a + en * yy) % rp.N ≡ rp.S ^ (a + en * yy) [ZMOD rp.N] :=
      emod_modEq _ _
    have l2 : rp.T ^ (u + en * m) % rp.N ≡ rp.T ^ (u + en * m) [ZMOD rp.N] :=
      emod_modEq _ _
    have r1 : (rp.S ^ a % rp.N) * (rp.T ^ u % rp.N) % rp.N ≡
        rp.S ^ a * rp.T ^ u [ZMOD rp.N] :=
      (emod_modEq _ _).trans (Int.ModEq.mul (emod_modEq _ _) (emod_modEq _ _))
    have r2 : ((rp.S ^ yy % rp.N) * (rp.T ^ m % rp.N) % rp.N) ^ en % rp.N ≡
        (rp.S ^ yy * rp.T ^ m) ^ en [ZMOD rp.N] :=
      (emod_modEq _ _).trans (Int.ModEq.pow en
        ((emod_modEq _ _).trans (Int.ModEq.mul (emod_modEq _ _) (emod_modEq _ _))))
    refine Int.ModEq.trans (Int.ModEq.mul l1 l2) ?_
    have hring : rp.S ^ (a + en * yy) * rp.T ^ (u + en * m) =
        (rp.S ^ a * rp.T ^ u) * (rp.S ^ yy * rp.T ^ m) ^ en := by ring
    rw [hring]
    exact Int.ModEq.mul r1.symm r2.symm

end DecCompletenessMain

section DecCompletenessWitness

/-- A concrete Dec statement with small parameters for the claim C3
witness: modulus 15, witness plaintext 3 with randomness 2. -/
def c3Stmt : DecStatement :=
  { Q := 7, Ell := 2, N0 := 15, C := EncryptWithRandomnessNoErrChk 15 3 2, X := 3 % 7 }

/-- Witness for claim C3 at small concrete parameters. -/
theorem claim_C3_witness :
    (∀ msg, 0 ≤ c1Hash msg) ∧ 1 < c3Stmt.N0 ∧
    (0 : Int) ≤ 2 ∧ (0 : Int) ≤ 1 ∧ (0 : Int) ≤ 1 ∧ (0 : Int) ≤ 4 ∧
    (0 : Int) ≤ 3 ∧ (0 : Int) ≤ 2 ∧
    IsCoprime (4 : Int) c3Stmt.N0 ∧ IsCoprime (2 : Int) c3Stmt.N0 ∧
    c3Stmt.C = EncryptWithRandomnessNoErrChk c3Stmt.N0 3 2 ∧
    c3Stmt.X = 3 % c3Stmt.Q ∧
    (NewDecProof c1Hash 2 1 1 4 { Y := 3, Rho := 2 } c3Stmt c1Rp).Verify c1Hash c3Stmt c1Rp
      = true :=
  ⟨fun _ => by simp [c1Hash], by decide, by decide, by decide, by decide, by decide,
    by decide, by decide,
    Int.isCoprime_iff_gcd_eq_one.mpr (by decide),
    Int.isCoprime_iff_gcd_eq_one.mpr (by decide), rfl, rfl,
    claim_C3 c1Hash (fun _ => by simp [c1Hash]) 2 1 1 4 3 2 c3Stmt c1Rp (by decide)
      (by decide) (by decide) (by decide) (by decide) (by decide) (by decide)
      (Int.isCoprime_iff_gcd_eq_one.mpr (by decide))
      (Int.isCoprime_iff_gcd_eq_one.mpr (by decide)) rfl rfl⟩

end DecCompletenessWitness

section ProofArraySerialization

/-- Big-endian base-256 digit expansion with an explicit fuel argument (the
value shrinks by a factor 256 each step, so any fuel at least the value
itself is enough); structural recursion keeps the function kernel-reducible. -/
def natBytesAux : Nat → Nat → List Nat
  | 0, _ => []
  | _ + 1, 0 => []
  | fuel + 1, n + 1 => natBytesAux fuel ((n + 1) / 256) ++ [(n + 1) % 256]

/-- Big-endian byte encoding of a natural number, as produced by
`big.Int.Bytes` on a nonnegative value: no leading zero bytes, and the
empty slice for zero. -/
def natBytes (n : Nat) : List Nat := natBytesAux n n

/-- Method `big.Int.Bytes`: the big-endian bytes of the absolute value. -/
def intBytes (v : Int) : List Nat := natBytes v.natAbs

/-- Big-endian decoding of a byte slice into a natural number
(`big.Int.SetBytes` magnitude). -/
def setBytesNat (l : List Nat) : Nat := l.foldl (fun acc b => acc * 256 + b) 0

/-- Method `big.Int.SetBytes`: decodes an unsigned big-endian byte slice;
the result is always nonnegative. -/
def setBytes (l : List Nat) : Int := (setBytesNat l : Int)

/-- Constant `zkproofs.DecProofParts`. -/
def DecProofParts : Nat := 7

/-- Method `DecProof.Bytes`: the seven components in order. -/
def DecProof.Bytes (proof : DecProof) : List (List Nat) :=
  [intBytes proof.S, intBytes proof.T, intBytes proof.A, intBytes proof.Gamma,
   intBytes proof.Z1, intBytes proof.Z2, intBytes proof.W]

/-- Modelled from the spec (§4.4): `common.NonEmptyMultiBytes(bzs, n)` (the
`common` package is not under `src/`): true exactly when the slice has
length `n` and every part is non-empty. -/
def NonEmptyMultiBytes (bzs : List (List Nat)) (n : Nat) : Bool :=
  bzs.length == n && bzs.all (fun b => !b.isEmpty)

/-- Method `DecProof.ProofFromBytes`: errors unless all `DecProofParts`
parts are non-empty, then decodes the components in order. -/
def DecProof.ProofFromBytes (bzs : List (List Nat)) : Except String DecProof :=
  if ¬ NonEmptyMultiBytes bzs DecProofParts then
    .error "expected 7 byte parts to construct DecProof"
  else
    .ok { S := setBytes (bzs.getD 0 []), T := setBytes (bzs.getD 1 []),
          A := setBytes (bzs.getD 2 []), Gamma := setBytes (bzs.getD 3 []),
          Z1 := setBytes (bzs.getD 4 []), Z2 := setBytes (bzs.getD 5 []),
          W := setBytes (bzs.getD 6 []) }

/-- Generic `zkproofs.ProofArrayToBytes` instantiated at `DecProof`: each
nil proof contributes `Parts` empty slices; each non-nil proof contributes
its `Bytes`. -/
def ProofArrayToBytes (proofs : List (Option DecProof)) : List (List Nat) :=
  proofs.flatMap fun proof =>
    match proof with
    | none => List.replicate DecProofParts ([] : List Nat)
    | some pf => pf.Bytes

/-- The decoding loop of `zkproofs.ProofArrayFromBytes`: one proof per
`Parts`-sized slice; an all-non-empty slice is decoded, any other slice is
left as a nil proof. -/
def proofArrayFromBytesGo : Nat → List (List Nat) → Except String (List (Option DecProof))
  | 0, _ => .ok []
  | pcount + 1, bzs =>
    let slice := bzs.take DecProofParts
    let rest := bzs.drop DecProofParts
    if NonEmptyMultiBytes slice slice.length then
      match DecProof.ProofFromBytes slice with
      | .error e => .error e
      | .ok pf =>
        match proofArrayFromBytesGo pcount rest with
        | .error e => .error e
        | .ok out => .ok (some pf :: out)
    else
      match proofArrayFromBytesGo pcount rest with
      | .error e => .error e
      | .ok out => .ok (none :: out)

/-- Generic `zkproofs.ProofArrayFromBytes` instantiated at `DecProof`:
errors unless the input length is a multiple of `Parts`, then decodes
slice-wise. -/
def ProofArrayFromBytes (bzs : List (List Nat)) : Except String (List (Option DecProof)) :=
  if bzs.length % DecProofParts ≠ 0 then .error "Improper input length"
  else proofArrayFromBytesGo (bzs.length / DecProofParts) bzs

/-- A Dec proof with a zero component: its first byte part is empty. -/
def c4BadProof : DecProof :=
  { S := 0, T := 1, A := 1, Gamma := 1, Z1 := 1, Z2 := 1, W := 1 }

/-- Counterexample for claim C4: the singleton array holding a proof with a
zero `S` component round-trips to `[nil]`, not to itself — the zero
component serializes to an empty slice, so the decoder treats the whole
entry as absent. -/
theorem claim_C4_counterexample :
    ProofArrayFromBytes (ProofArrayToBytes [some c4BadProof]) =
      Except.ok [(none : Option DecProof)] ∧
    [(none : Option DecProof)] ≠ [some c4BadProof] := by
  refine ⟨rfl, by decide⟩

end ProofArraySerialization

section ProofArrayRoundTrip

lemma setBytesNat_append_singleton (l : List Nat) (b : Nat) :
    setBytesNat (l ++ [b]) = setBytesNat l * 256 + b := by
  unfold setBytesNat
  rw [List.foldl_append]
  rfl

lemma setBytesNat_natBytesAux : ∀ (fuel n : Nat), n ≤ fuel →
    setBytesNat (natBytesAux fuel n) = n := by
  intro fuel
  induction fuel with
  | zero =>
    intro n hn
    interval_cases n
    rfl
  | succ fuel ih =>
    intro n hn
    match n with
    | 0 => rfl
    | k + 1 =>
      rw [natBytesAux, setBytesNat_append_singleton, ih ((k + 1) / 256) (by omega)]
      omega

lemma setBytes_intBytes {v : Int} (h : 0 ≤ v) : setBytes (intBytes v) = v := by
  rw [intBytes, natBytes, setBytes, setBytesNat_natBytesAux _ _ le_rfl,
    Int.natAbs_of_nonneg h]

lemma intBytes_ne_nil {v : Int} (h : 0 < v) : intBytes v ≠ [] := by
  rw [intBytes, natBytes]
  obtain ⟨k, hk⟩ : ∃ k, v.natAbs = k + 1 := ⟨v.natAbs - 1, by omega⟩
  rw [hk, natBytesAux]
  simp

lemma proofArrayFromBytesGo_toBytes (A : List (Option DecProof))
    (hpos : ∀ q : DecProof, some q ∈ A →
      0 < q.S ∧ 0 < q.T ∧ 0 < q.A ∧ 0 < q.Gamma ∧ 0 < q.Z1 ∧ 0 < q.Z2 ∧ 0 < q.W) :
    proofArrayFromBytesGo A.length (ProofArrayToBytes A) = .ok A := by
  induction A with
  | nil => rfl
  | cons hd rest ih =>
    have hrest := fun q hq => hpos q (List.mem_cons_of_mem _ hq)
    cases hd with
    | none =>
      have hlen : (List.replicate DecProofParts ([] : List Nat)).length = DecProofParts :=
        List.length_replicate _ _
      show proofArrayFromBytesGo (rest.length + 1)
          (List.replicate DecProofParts ([] : List Nat) ++ ProofArrayToBytes rest) =
        Except.ok (none :: rest)
      rw [proofArrayFromBytesGo]
      rw [List.take_left' hlen, List.drop_left' hlen]
      rw [if_neg (by decide), ih hrest]
    | some q =>
      obtain ⟨hS, hT, hA, hG, h1, h2, hW⟩ := hpos q (List.mem_cons_self _ _)
      have hlen : (q.Bytes).length = DecProofParts := rfl
      have hne : NonEmptyMultiBytes q.Bytes q.Bytes.length = true := by
        simp [NonEmptyMultiBytes, DecProof.Bytes, List.isEmpty_iff,
          intBytes_ne_nil hS, intBytes_ne_nil hT, intBytes_ne_nil hA,
          intBytes_ne_nil hG, intBytes_ne_nil h1, intBytes_ne_nil h2,
          intBytes_ne_nil hW]
      have hfb : DecProof.ProofFromBytes q.Bytes = .ok q := by
        obtain ⟨qS, qT, qA, qG, qZ1, qZ2, qW⟩ := q
        simp only at hS hT hA hG h1 h2 hW
        have hne2 : NonEmptyMultiBytes
            (DecProof.Bytes
              { S := qS, T := qT, A := qA, Gamma := qG,
                Z1 := qZ1, Z2 := qZ2, W := qW }) DecProofParts = true := hne
        rw [DecProof.ProofFromBytes, if_neg (not_not_intro hne2)]
        show Except.ok
            ({ S := setBytes (intBytes qS), T := setBytes (intBytes qT),
               A := setBytes (intBytes qA), Gamma := setBytes (intBytes qG),
               Z1 := setBytes (intBytes qZ1), Z2 := setBytes (intBytes qZ2),
               W := setBytes (intBytes qW) } : DecProof) = _
        rw [setBytes_intBytes hS.le, setBytes_intBytes hT.le, setBytes_intBytes hA.le,
          setBytes_intBytes hG.le, setBytes_intBytes h1.le, setBytes_intBytes h2.le,
          setBytes_intBytes hW.le]
      show proofArrayFromBytesGo (rest.length + 1) (q.Bytes ++ ProofArrayToBytes rest) =
        Except.ok (some q :: rest)
      rw [proofArrayFromBytesGo]
      rw [List.take_left' hlen, List.drop_left' hlen]
      rw [if_pos hne, hfb, ih hrest]

lemma proofArrayToBytes_length (A : List (Option DecProof)) :
    (ProofArrayToBytes A).length = 7 * A.length := by
  induction A with
  | nil => rfl
  | cons hd rest ih =>
    cases hd with
    | none =>
      show (List.replicate DecProofParts ([] : List Nat) ++ ProofArrayToBytes rest).length
        = 7 * (rest.length + 1)
      rw [List.length_append, List.length_replicate, ih]
      simp [DecProofParts]
      omega
    | some q =>
      show (q.Bytes ++ ProofArrayToBytes rest).length = 7 * (rest.length + 1)
      rw [List.length_append, ih]
      show 7 + 7 * rest.length = 7 * (rest.length + 1)
      omega

/-- Claim C4 (amended): `ProofArrayFromBytes ∘ ProofArrayToBytes` is the
identity, nil entries decoded back to nil and every non-nil proof decoded to
an equal proof, provided every component of every non-nil proof is positive
(a zero component serializes to an empty slice and makes the decoder drop
the whole entry, and a negative component loses its sign). -/
theorem claim_C4 (A : List (Option DecProof))
    (hpos : ∀ q : DecProof, some q ∈ A →
      0 < q.S ∧ 0 < q.T ∧ 0 < q.A ∧ 0 < q.Gamma ∧ 0 < q.Z1 ∧ 0 < q.Z2 ∧ 0 < q.W) :
    ProofArrayFromBytes (ProofArrayToBytes A) = .ok A := by
  have hlen := proofArrayToBytes_length A
  rw [ProofArrayFromBytes]
  rw [if_neg (by simp only [DecProofParts, hlen]; omega)]
  have hdiv : (ProofArrayToBytes A).length / DecProofParts = A.length := by
    simp only [DecProofParts, hlen]
    omega
  rw [hdiv]
  exact proofArrayFromBytesGo_toBytes A hpos

/-- A Dec proof with all components positive, for the claim C4 witness. -/
def c4GoodProof : DecProof :=
  { S := 3, T := 10, A := 169, Gamma := 1, Z1 := 307, Z2 := 4, W := 2 }

/-- Witness for claim C4 on a concrete array with a nil entry. -/
theorem claim_C4_witness :
    (∀ q : DecProof, some q ∈ [some c4GoodProof, none] →
      0 < q.S ∧ 0 < q.T ∧ 0 < q.A ∧ 0 < q.Gamma ∧ 0 < q.Z1 ∧ 0 < q.Z2 ∧ 0 < q.W) ∧
    ProofArrayFromBytes (ProofArrayToBytes [some c4GoodProof, none]) =
      .ok [some c4GoodProof, none] := by
  have hpos : ∀ q : DecProof, some q ∈ [some c4GoodProof, none] →
      0 < q.S ∧ 0 < q.T ∧ 0 < q.A ∧ 0 < q.Gamma ∧ 0 < q.Z1 ∧ 0 < q.Z2 ∧ 0 < q.W := by
    intro q hq
    simp only [List.mem_cons, List.not_mem_nil, or_false] at hq
    rcases hq with hq | hq
    · have hq2 : q = c4GoodProof := by injection hq
      subst hq2
      exact ⟨by decide, by decide, by decide, by decide, by decide, by decide, by decide⟩
    · exact Option.noConfusion hq
  exact ⟨hpos, claim_C4 _ hpos⟩

end ProofArrayRoundTrip

section PaillierModel

/-- Modelled from the spec (§4.2): a Paillier secret key generated from two
distinct primes (the `paillier` implementation is not under `src/`, only its
tests). -/
structure PaillierPrivateKey where
  P : Nat
  Q : Nat
  deriving Repr, DecidableEq

/-- The Paillier modulus `N = p·q`. -/
def PaillierPrivateKey.N (sk : PaillierPrivateKey) : Int := (sk.P : Int) * sk.Q

/-- Modelled from the spec (§4.2): `λ = lcm(p−1, q−1)`. -/
def PaillierPrivateKey.Lambda (sk : PaillierPrivateKey) : Int :=
  (Nat.lcm (sk.P - 1) (sk.Q - 1) : Nat)

/-- Function `paillier.L` (its value is pinned by `TestComputeL` in
`src/crypto/paillier/paillier_test.go`: `L(21, 3) = 6`): `L(u, n) = (u−1)/n`
with Euclidean division, as Go's `big.Int.Div`. -/
def L (u n : Int) : Int := (u - 1) / n

/-- Modelled from the spec (§4.1): `big.Int.ModInverse` via the extended
Euclidean algorithm. -/
def modInverse (a n : Int) : Int := Int.gcdA a n % n

/-- Modelled from the spec (§4.2): the raw Paillier decryption formula with
`g = 1 + N`: `m = L(c^λ mod N²) · λ⁻¹ mod N`. -/
def PaillierDecryptRaw (sk : PaillierPrivateKey) (c : Int) : Int :=
  let lam := sk.Lambda
  let mu := modInverse lam sk.N
  (L (goExp c lam (sk.N * sk.N)) sk.N * mu) % sk.N

/-- Modelled from the spec (§4.2): `Decrypt` fails with `InvalidCiphertext`
if `c ≥ N²` or `c` lies in a non-coprime coset, and otherwise applies the
raw decryption. -/
def Decrypt (sk : PaillierPrivateKey) (c : Int) : Except String Int :=
  if c ≥ sk.N * sk.N ∨ Int.gcd c (sk.N * sk.N) ≠ 1 then .error "InvalidCiphertext"
  else .ok (PaillierDecryptRaw sk c)

/-- Modelled from the spec (§4.2): `DecryptFull` performs the same
validation, recovers the randomness `ρ = c^(N⁻¹ mod λ) mod N`, and fails
with `InvalidCiphertext` if `ρ` does not re-encrypt to `c`. -/
def DecryptFull (sk : PaillierPrivateKey) (c : Int) : Except String (Int × Int) :=
  if c ≥ sk.N * sk.N ∨ Int.gcd c (sk.N * sk.N) ≠ 1 then .error "InvalidCiphertext"
  else
    let m := PaillierDecryptRaw sk c
    let rho := goExp c (modInverse sk.N sk.Lambda) sk.N
    if EncryptWithRandomnessNoErrChk sk.N m rho ≠ c then .error "InvalidCiphertext"
    else .ok (m, rho)

/-- Claim C8: both `Decrypt` and `DecryptFull` return the
`InvalidCiphertext` error — and hence never a plaintext — whenever the
ciphertext is at least `N²` or shares a factor with `N²` (in particular for
`c = N`, which divides `N²`). -/
theorem claim_C8 (sk : PaillierPrivateKey) (c : Int)
    (h : c ≥ sk.N * sk.N ∨ Int.gcd c (sk.N * sk.N) ≠ 1) :
    Decrypt sk c = .error "InvalidCiphertext" ∧
    DecryptFull sk c = .error "InvalidCiphertext" := by
  constructor
  · rw [Decrypt, if_pos h]
  · rw [DecryptFull, if_pos h]

/-- Witness for claim C8 at `p = 3, q = 5` and `c = N = 15`: the modulus
itself is rejected by both decryption entry points. -/
theorem claim_C8_witness :
    ((15 : Int) ≥ (⟨3, 5⟩ : PaillierPrivateKey).N * (⟨3, 5⟩ : PaillierPrivateKey).N ∨
      Int.gcd 15 ((⟨3, 5⟩ : PaillierPrivateKey).N * (⟨3, 5⟩ : PaillierPrivateKey).N) ≠ 1) ∧
    Decrypt ⟨3, 5⟩ 15 = .error "InvalidCiphertext" ∧
    DecryptFull ⟨3, 5⟩ 15 = .error "InvalidCiphertext" :=
  ⟨Or.inr (by decide), claim_C8 ⟨3, 5⟩ 15 (Or.inr (by decide))⟩

end PaillierModel

section PaillierCorrectness

lemma one_add_pow_modEq (N : Int) (k : Nat) :
    (1 + N) ^ k ≡ 1 + (k : Int) * N [ZMOD N * N] := by
  cases k with
  | zero => simpa using Int.ModEq.refl 1
  | succ k =>
    have h := pow_modEq_sq_aux 1 N k
    simpa [add_comm] using h

lemma modInverse_correct {a n : Int} (h : Int.gcd a n = 1) :
    a * modInverse a n ≡ 1 [ZMOD n] := by
  have hb := Int.gcd_eq_gcd_ab a n
  rw [h] at hb
  push_cast at hb
  calc a * modInverse a n = a * (Int.gcdA a n % n) := rfl
    _ ≡ a * Int.gcdA a n [ZMOD n] := Int.ModEq.mul_left _ (emod_modEq _ _)
    _ ≡ a * Int.gcdA a n + n * Int.gcdB a n [ZMOD n] := (Int.modEq_add_fac_self).symm
    _ = 1 := hb.symm

lemma pow_lcm_modEq_one (pp qq : Nat) (hp : pp.Prime) (hq : qq.Prime) (hpq : pp ≠ qq)
    {u : Int} (hu : IsCoprime u ((pp : Int) * qq)) :
    u ^ Nat.lcm (pp - 1) (qq - 1) ≡ 1 [ZMOD (pp : Int) * qq] := by
  have hup : IsCoprime u (pp : Int) := hu.of_mul_right_left
  have huq : IsCoprime u (qq : Int) := hu.of_mul_right_right
  have h1 : u ^ Nat.lcm (pp - 1) (qq - 1) ≡ 1 [ZMOD (pp : Int)] := by
    obtain ⟨k, hk⟩ := Nat.dvd_lcm_left (pp - 1) (qq - 1)
    rw [hk, pow_mul]
    calc (u ^ (pp - 1)) ^ k ≡ 1 ^ k [ZMOD (pp : Int)] :=
        Int.ModEq.pow k (Int.ModEq.pow_card_sub_one_eq_one hp hup)
      _ = 1 := one_pow k
  have h2 : u ^ Nat.lcm (pp - 1) (qq - 1) ≡ 1 [ZMOD (qq : Int)] := by
    obtain ⟨k, hk⟩ := Nat.dvd_lcm_right (pp - 1) (qq - 1)
    rw [hk, pow_mul]
    calc (u ^ (qq - 1)) ^ k ≡ 1 ^ k [ZMOD (qq : Int)] :=
        Int.ModEq.pow k (Int.ModEq.pow_card_sub_one_eq_one hq huq)
      _ = 1 := one_pow k
  have hco : ((pp : Int)).natAbs.Coprime ((qq : Int)).natAbs := by
    simpa using (Nat.coprime_primes hp hq).mpr hpq
  exact (Int.modEq_and_modEq_iff_modEq_mul hco).mp ⟨h1, h2⟩

/-- Correctness of the modelled raw Paillier decryption: any ciphertext
congruent to `(1+N)^m · u^N mod N²` with `u` a unit decrypts to `m`. -/
lemma paillierDecryptRaw_correct (pp qq : Nat) (hp : pp.Prime) (hq : qq.Prime)
    (hpq : pp ≠ qq) (m : Nat) (u c : Int)
    (hm : m < pp * qq)
    (hu : IsCoprime u ((pp : Int) * qq))
    (hlam : Int.gcd ((Nat.lcm (pp - 1) (qq - 1) : Nat) : Int) ((pp : Int) * qq) = 1)
    (hc : c ≡ (1 + (pp : Int) * qq) ^ m * u ^ (pp * qq)
        [ZMOD ((pp : Int) * qq) * ((pp : Int) * qq)]) :
    PaillierDecryptRaw ⟨pp, qq⟩ c = m := by
  have hp2 : (2 : Int) ≤ pp := by exact_mod_cast hp.two_le
  have hq2 : (2 : Int) ≤ qq := by exact_mod_cast hq.two_le
  have hNpos : (0 : Int) < (pp : Int) * qq := by positivity
  have hN2 : (2 : Int) ≤ (pp : Int) * qq := by nlinarith
  have hNne : ((pp : Int) * qq) ≠ 0 := by omega
  have hNt : ((pp : Int) * qq).toNat = pp * qq := by
    rw [← Int.natCast_mul, Int.toNat_natCast]
  -- the lambda exponent
  set lamNat := Nat.lcm (pp - 1) (qq - 1) with hlamNat
  -- u^(lam) is 1 mod N, hence u^(N·lam) is 1 mod N²
  have hu1 : u ^ lamNat ≡ 1 [ZMOD (pp : Int) * qq] := pow_lcm_modEq_one pp qq hp hq hpq hu
  have hu2 : (u ^ lamNat) ^ (pp * qq) ≡ 1 [ZMOD ((pp : Int) * qq) * ((pp : Int) * qq)] := by
    have h := pow_modEq_sq hNpos hu1
    rw [hNt, one_pow] at h
    exact h
  -- c^lam mod N²
  have hcpow : c ^ lamNat ≡ 1 + ((m : Int) * lamNat) * ((pp : Int) * qq)
      [ZMOD ((pp : Int) * qq) * ((pp : Int) * qq)] := by
    calc c ^ lamNat
        ≡ ((1 + (pp : Int) * qq) ^ m * u ^ (pp * qq)) ^ lamNat
          [ZMOD ((pp : Int) * qq) * ((pp : Int) * qq)] := hc.pow lamNat
      _ = (1 + (pp : Int) * qq) ^ (m * lamNat) * (u ^ lamNat) ^ (pp * qq) := by
          rw [mul_pow, ← pow_mul, ← pow_mul, ← pow_mul]
          ring
      _ ≡ (1 + ((m * lamNat : Nat) : Int) * ((pp : Int) * qq)) * 1
          [ZMOD ((pp : Int) * qq) * ((pp : Int) * qq)] :=
          Int.ModEq.mul (one_add_pow_modEq _ (m * lamNat)) hu2
      _ = 1 + ((m : Int) * lamNat) * ((pp : Int) * qq) := by push_cast; ring
  -- the exact residue of c^lam mod N²
  have hemod0 := Int.emod_nonneg ((m : Int) * lamNat) hNne
  have hemodlt := Int.emod_lt_of_pos ((m : Int) * lamNat) hNpos
  have hmod : c ^ lamNat % (((pp : Int) * qq) * ((pp : Int) * qq)) =
      1 + ((m : Int) * lamNat) % ((pp : Int) * qq) * ((pp : Int) * qq) := by
    have hshift : 1 + ((m : Int) * lamNat) % ((pp : Int) * qq) * ((pp : Int) * qq) ≡
        1 + ((m : Int) * lamNat) * ((pp : Int) * qq)
        [ZMOD ((pp : Int) * qq) * ((pp : Int) * qq)] :=
      (Int.ModEq.mul_right' (emod_modEq _ _)).add_left 1
    have h1 := hcpow.trans hshift.symm
    have hlow : (0 : Int) ≤ 1 + ((m : Int) * lamNat) % ((pp : Int) * qq) * ((pp : Int) * qq) := by
      nlinarith
    have hhigh : 1 + ((m : Int) * lamNat) % ((pp : Int) * qq) * ((pp : Int) * qq) <
        ((pp : Int) * qq) * ((pp : Int) * qq) := by
      nlinarith
    rw [show c ^ lamNat % (((pp : Int) * qq) * ((pp : Int) * qq)) =
        (1 + ((m : Int) * lamNat) % ((pp : Int) * qq) * ((pp : Int) * qq)) %
          (((pp : Int) * qq) * ((pp : Int) * qq)) from h1,
      Int.emod_eq_of_lt hlow hhigh]
  -- evaluate the decryption formula
  have hL : L (c ^ lamNat % (((pp : Int) * qq) * ((pp : Int) * qq))) ((pp : Int) * qq) =
      ((m : Int) * lamNat) % ((pp : Int) * qq) := by
    rw [hmod, L, add_sub_cancel_left, Int.mul_ediv_cancel _ hNne]
  have hfin : ((m : Int) * lamNat) % ((pp : Int) * qq) *
      modInverse (lamNat : Int) ((pp : Int) * qq) ≡ (m : Int) [ZMOD (pp : Int) * qq] := by
    calc ((m : Int) * lamNat) % ((pp : Int) * qq) *
          modInverse (lamNat : Int) ((pp : Int) * qq)
        ≡ ((m : Int) * lamNat) * modInverse (lamNat : Int) ((pp : Int) * qq)
          [ZMOD (pp : Int) * qq] := Int.ModEq.mul_right _ (emod_modEq _ _)
      _ = (m : Int) * ((lamNat : Int) * modInverse (lamNat : Int) ((pp : Int) * qq)) := by
          ring
      _ ≡ (m : Int) * 1 [ZMOD (pp : Int) * qq] :=
          Int.ModEq.mul_left _ (modInverse_correct hlam)
      _ = (m : Int) := mul_one _
  have hmlt : (m : Int) < (pp : Int) * qq := by exact_mod_cast hm
  show (L (goExp c ((lamNat : Nat) : Int) (((pp : Int) * qq) * ((pp : Int) * qq)))
      ((pp : Int) * qq) * modInverse ((lamNat : Nat) : Int) ((pp : Int) * qq)) %
      ((pp : Int) * qq) = (m : Int)
  rw [goExp_natCast, hL]
  rw [show ((m : Int) * lamNat) % ((pp : Int) * qq) *
      modInverse (lamNat : Int) ((pp : Int) * qq) % ((pp : Int) * qq) =
      (m : Int) % ((pp : Int) * qq) from hfin,
    Int.emod_eq_of_lt (by positivity) hmlt]

end PaillierCorrectness

section MtAProtocol

/-- Modelled from the spec (§4.5): `accmta.AliceInit` (the `accmta`
implementation is not under `src/`): Alice's ciphertext
`cA = Enc_{pkA}(a, ra)`; the per-peer Enc proofs do not affect the
exchanged values and are elided. -/
def AliceInit (NA a ra : Int) : Int := EncryptWithRandomnessNoErrChk NA a ra

/-- Modelled from the spec (§4.5), with `−β` encoded modulo the curve order
as pinned by the additive-inverse relation checked in
`src/crypto/accmta/share_protocol_test.go` (`beta = (0 − betaPrm) mod q`,
`Dec(cBeta + cBetaPrm) = q`): `accmta.BobRespondsG` — Bob samples
`betaPrm ∈ [0, q)` and randomness `ρ′, ρ_β`, and returns
`β = (0 − betaPrm) mod q`, `cAlpha = cA^b · Enc_{NA}(betaPrm, ρ′) mod NA²`
and `cBeta = Enc_{NB}(β, ρ_β)`; the AffG proofs are elided as above. -/
def BobRespondsG (q NA NB b betaPrm rho2 rhoBeta cA : Int) : Int × Int × Int :=
  let beta := (0 - betaPrm) % q
  let cAlpha :=
    (goExp cA b (NA * NA) * EncryptWithRandomnessNoErrChk NA betaPrm rho2) % (NA * NA)
  let cBeta := EncryptWithRandomnessNoErrChk NB beta rhoBeta
  (beta, cAlpha, cBeta)

/-- Modelled from the spec (§4.5): `accmta.AliceEndG` — Alice verifies Bob's
proofs (elided: they do not affect the output value) and returns
`α = Decrypt(cAlpha) mod q`. -/
def AliceEndG (sk : PaillierPrivateKey) (q cAlpha : Int) : Except String Int :=
  match Decrypt sk cAlpha with
  | .error e => .error e
  | .ok msg => .ok (msg % q)

/-- Claim C2: MtA correctness.  For Alice's input `a` and Bob's input `b`
in `[0, q)`, an honest run of `AliceInit` / `BobRespondsG` / `AliceEndG`
under a Paillier key with distinct primes and `q² ≤ N` yields outputs with
`α + β ≡ a·b (mod q)`; the randomness is passed explicitly and assumed to be
sampled from the multiplicative groups (coprime to `N`). -/
theorem claim_C2 (pp qq : Nat) (hp : pp.Prime) (hq : qq.Prime) (hpq : pp ≠ qq)
    (qc NB a b betaPrm ra rho2 rhoBeta : Int)
    (hqc : 0 < qc)
    (ha0 : 0 ≤ a) (haq : a < qc) (hb0 : 0 ≤ b) (hbq : b < qc)
    (hbp0 : 0 ≤ betaPrm) (hbpq : betaPrm < qc)
    (hbound : qc * qc ≤ (pp : Int) * qq)
    (hra : IsCoprime ra ((pp : Int) * qq))
    (hrho2 : IsCoprime rho2 ((pp : Int) * qq))
    (hlam : Int.gcd ((Nat.lcm (pp - 1) (qq - 1) : Nat) : Int) ((pp : Int) * qq) = 1) :
    ∀ beta cAlpha cBeta : Int,
      BobRespondsG qc ((pp : Int) * qq) NB b betaPrm rho2 rhoBeta
        (AliceInit ((pp : Int) * qq) a ra) = (beta, cAlpha, cBeta) →
      ∃ alpha : Int, AliceEndG ⟨pp, qq⟩ qc cAlpha = Except.ok alpha ∧
        (alpha + beta) % qc = (a * b) % qc := by
  intro beta cAlpha cBeta heq
  obtain ⟨hbeta, hcAlpha, hcBeta⟩ :
      (0 - betaPrm) % qc = beta ∧
      (goExp (AliceInit ((pp : Int) * qq) a ra) b (((pp : Int) * qq) * ((pp : Int) * qq)) *
        EncryptWithRandomnessNoErrChk ((pp : Int) * qq) betaPrm rho2) %
          (((pp : Int) * qq) * ((pp : Int) * qq)) = cAlpha ∧
      EncryptWithRandomnessNoErrChk NB ((0 - betaPrm) % qc) rhoBeta = cBeta := by
    simpa [BobRespondsG, Prod.ext_iff] using heq
  subst hbeta
  subst hcAlpha
  subst hcBeta
  lift a to ℕ using ha0 with an
  lift b to ℕ using hb0 with bn
  lift betaPrm to ℕ using hbp0 with bpn
  have hp2 : (2 : Int) ≤ pp := by exact_mod_cast hp.two_le
  have hq2 : (2 : Int) ≤ qq := by exact_mod_cast hq.two_le
  have hNpos : (0 : Int) < (pp : Int) * qq := by positivity
  have hNnn : (0 : Int) ≤ (pp : Int) * qq := le_of_lt hNpos
  have hMpos : (0 : Int) < ((pp : Int) * qq) * ((pp : Int) * qq) := by positivity
  have hMne : ((pp : Int) * qq) * ((pp : Int) * qq) ≠ 0 := by positivity
  have h1cop : IsCoprime (1 + (pp : Int) * qq) ((pp : Int) * qq) := by
    have h := (isCoprime_one_left : IsCoprime (1 : Int) ((pp : Int) * qq))
    simpa using h.add_mul_left_left 1
  have h1cop2 : IsCoprime (1 + (pp : Int) * qq) (((pp : Int) * qq) * ((pp : Int) * qq)) :=
    h1cop.mul_right h1cop
  have hra2 : IsCoprime ra (((pp : Int) * qq) * ((pp : Int) * qq)) := hra.mul_right hra
  have hrho22 : IsCoprime rho2 (((pp : Int) * qq) * ((pp : Int) * qq)) :=
    hrho2.mul_right hrho2
  -- congruence form and coprimality of Alice's ciphertext
  have hencA : EncryptWithRandomnessNoErrChk ((pp : Int) * qq) (an : Int) ra ≡
      (1 + (pp : Int) * qq) ^ an * ra ^ ((pp : Int) * qq).toNat
      [ZMOD ((pp : Int) * qq) * ((pp : Int) * qq)] := by
    simp only [EncryptWithRandomnessNoErrChk, PseudoPaillierEncrypt, modIntMul,
      goExp_natCast, goExp_of_nonneg, hNnn]
    exact (emod_modEq _ _).trans (Int.ModEq.mul (emod_modEq _ _) (emod_modEq _ _))
  have hencB : EncryptWithRandomnessNoErrChk ((pp : Int) * qq) (bpn : Int) rho2 ≡
      (1 + (pp : Int) * qq) ^ bpn * rho2 ^ ((pp : Int) * qq).toNat
      [ZMOD ((pp : Int) * qq) * ((pp : Int) * qq)] := by
    simp only [EncryptWithRandomnessNoErrChk, PseudoPaillierEncrypt, modIntMul,
      goExp_natCast, goExp_of_nonneg, hNnn]
    exact (emod_modEq _ _).trans (Int.ModEq.mul (emod_modEq _ _) (emod_modEq _ _))
  have hcoA : IsCoprime (EncryptWithRandomnessNoErrChk ((pp : Int) * qq) (an : Int) ra)
      (((pp : Int) * qq) * ((pp : Int) * qq)) := by
    simp only [EncryptWithRandomnessNoErrChk, PseudoPaillierEncrypt, modIntMul,
      goExp_natCast, goExp_of_nonneg, hNnn]
    exact isCoprime_emod (IsCoprime.mul_left (isCoprime_emod (h1cop2.pow_left))
      (isCoprime_emod (hra2.pow_left)))
  have hcoB : IsCoprime (EncryptWithRandomnessNoErrChk ((pp : Int) * qq) (bpn : Int) rho2)
      (((pp : Int) * qq) * ((pp : Int) * qq)) := by
    simp only [EncryptWithRandomnessNoErrChk, PseudoPaillierEncrypt, modIntMul,
      goExp_natCast, goExp_of_nonneg, hNnn]
    exact isCoprime_emod (IsCoprime.mul_left (isCoprime_emod (h1cop2.pow_left))
      (isCoprime_emod (hrho22.pow_left)))
  -- the ciphertext Bob returns, in congruence form
  have hpowA : goExp (AliceInit ((pp : Int) * qq) (an : Int) ra) (bn : Int)
        (((pp : Int) * qq) * ((pp : Int) * qq)) ≡
      ((1 + (pp : Int) * qq) ^ an * ra ^ ((pp : Int) * qq).toNat) ^ bn
      [ZMOD ((pp : Int) * qq) * ((pp : Int) * qq)] := by
    rw [goExp_natCast]
    exact (emod_modEq _ _).trans (hencA.pow bn)
  have hkey : (goExp (AliceInit ((pp : Int) * qq) (an : Int) ra) (bn : Int)
        (((pp : Int) * qq) * ((pp : Int) * qq)) *
        EncryptWithRandomnessNoErrChk ((pp : Int) * qq) (bpn : Int) rho2) %
        (((pp : Int) * qq) * ((pp : Int) * qq)) ≡
      (1 + (pp : Int) * qq) ^ (an * bn + bpn) *
        (ra ^ bn * rho2) ^ (pp * qq)
      [ZMOD ((pp : Int) * qq) * ((pp : Int) * qq)] := by
    have hNt : ((pp : Int) * qq).toNat = pp * qq := by
      rw [← Int.natCast_mul, Int.toNat_natCast]
    refine (emod_modEq _ _).trans ((Int.ModEq.mul hpowA hencB).trans ?_)
    rw [show ((1 + (pp : Int) * qq) ^ an * ra ^ ((pp : Int) * qq).toNat) ^ bn *
        ((1 + (pp : Int) * qq) ^ bpn * rho2 ^ ((pp : Int) * qq).toNat) =
        (1 + (pp : Int) * qq) ^ (an * bn + bpn) *
          (ra ^ bn * rho2) ^ ((pp : Int) * qq).toNat from by ring, hNt]
  -- Bob's ciphertext is a valid input to Decrypt
  have hcoAlpha : IsCoprime ((goExp (AliceInit ((pp : Int) * qq) (an : Int) ra) (bn : Int)
        (((pp : Int) * qq) * ((pp : Int) * qq)) *
        EncryptWithRandomnessNoErrChk ((pp : Int) * qq) (bpn : Int) rho2) %
        (((pp : Int) * qq) * ((pp : Int) * qq)))
      (((pp : Int) * qq) * ((pp : Int) * qq)) := by
    refine isCoprime_emod (IsCoprime.mul_left ?_ hcoB)
    rw [goExp_natCast]
    exact isCoprime_emod (hcoA.pow_left)
  have hlt : (goExp (AliceInit ((pp : Int) * qq) (an : Int) ra) (bn : Int)
        (((pp : Int) * qq) * ((pp : Int) * qq)) *
        EncryptWithRandomnessNoErrChk ((pp : Int) * qq) (bpn : Int) rho2) %
        (((pp : Int) * qq) * ((pp : Int) * qq)) <
      ((pp : Int) * qq) * ((pp : Int) * qq) := Int.emod_lt_of_pos _ hMpos
  -- plaintext bound
  have hmlt : an * bn + bpn < pp * qq := by
    have h1 : (an : Int) * bn + bpn < ((pp : Int)) * qq := by nlinarith
    exact_mod_cast h1
  -- decryption
  have hdec : PaillierDecryptRaw ⟨pp, qq⟩
      ((goExp (AliceInit ((pp : Int) * qq) (an : Int) ra) (bn : Int)
        (((pp : Int) * qq) * ((pp : Int) * qq)) *
        EncryptWithRandomnessNoErrChk ((pp : Int) * qq) (bpn : Int) rho2) %
        (((pp : Int) * qq) * ((pp : Int) * qq))) = ((an * bn + bpn : Nat) : Int) :=
    paillierDecryptRaw_correct pp qq hp hq hpq (an * bn + bpn) (ra ^ bn * rho2) _
      hmlt ((hra.pow_left).mul_left hrho2) hlam hkey
  refine ⟨((an * bn + bpn : Nat) : Int) % qc, ?_, ?_⟩
  · rw [AliceEndG, Decrypt,
      if_neg (by
        push_neg
        exact ⟨hlt, Int.isCoprime_iff_gcd_eq_one.mp hcoAlpha⟩),
      hdec]
  · show (((an * bn + bpn : Nat) : Int) % qc + (0 - (bpn : Int)) % qc) % qc
      = ((an : Int) * bn) % qc
    have hchain : ((an * bn + bpn : Nat) : Int) % qc + (0 - (bpn : Int)) % qc ≡
        (an : Int) * bn [ZMOD qc] := by
      calc ((an * bn + bpn : Nat) : Int) % qc + (0 - (bpn : Int)) % qc
          ≡ ((an * bn + bpn : Nat) : Int) + (0 - (bpn : Int)) [ZMOD qc] :=
            Int.ModEq.add (emod_modEq _ _) (emod_modEq _ _)
        _ = (an : Int) * bn := by push_cast; ring
    exact hchain
end MtAProtocol

section MtAWitness

/-- Witness for claim C2 at `p = 3, q = 5` (so `N = 15`), curve order 3,
inputs `a = b = 2`, `betaPrm = 1`, randomness `ra = 2, ρ′ = 4, ρ_β = 1`:
Bob returns `β = 2` and `cAlpha = 76`, and Alice decrypts `α = 2` with
`α + β ≡ 4 ≡ a·b (mod 3)`. -/
theorem claim_C2_witness :
    Nat.Prime 3 ∧ Nat.Prime 5 ∧ (3 : Nat) ≠ 5 ∧
    (0 : Int) < 3 ∧ (0 : Int) ≤ 2 ∧ (2 : Int) < 3 ∧ (0 : Int) ≤ 2 ∧ (2 : Int) < 3 ∧
    (0 : Int) ≤ 1 ∧ (1 : Int) < 3 ∧ (3 : Int) * 3 ≤ (3 : Int) * 5 ∧
    IsCoprime (2 : Int) ((3 : Int) * 5) ∧ IsCoprime (4 : Int) ((3 : Int) * 5) ∧
    Int.gcd ((Nat.lcm (3 - 1) (5 - 1) : Nat) : Int) ((3 : Int) * 5) = 1 ∧
    BobRespondsG 3 ((3 : Int) * 5) 15 2 1 4 1 (AliceInit ((3 : Int) * 5) 2 2) =
      (2, 76, 31) ∧
    (∃ alpha : Int, AliceEndG ⟨3, 5⟩ 3 76 = Except.ok alpha ∧
      (alpha + 2) % 3 = (2 * 2 : Int) % 3) :=
  ⟨by norm_num, by norm_num, by decide, by decide, by decide, by decide, by decide,
    by decide, by decide, by decide, by decide,
    Int.isCoprime_iff_gcd_eq_one.mpr (by decide),
    Int.isCoprime_iff_gcd_eq_one.mpr (by decide), by decide, by decide,
    claim_C2 3 5 (by norm_num) (by norm_num) (by decide) 3 15 2 2 1 2 4 1
      (by decide) (by decide) (by decide) (by decide) (by decide) (by decide)
      (by decide) (by decide)
      (Int.isCoprime_iff_gcd_eq_one.mpr (by decide))
      (Int.isCoprime_iff_gcd_eq_one.mpr (by decide)) (by decide)
      2 76 31 (by decide)⟩

end MtAWitness
